import Mathlib

/-!
Verification of the Boggle server core (src/boggle.py, src/boggle_utils.py),
embedded shallowly as executable Lean definitions.

Conventions of the embedding:
* words and die faces are lists of characters (board cells produced by
  `roll` are single characters, since Python indexing of a die string
  yields one-character strings);
* timestamps and durations are integers, in seconds;
* the external unidecode fold is a parameter `ud` of the definitions that
  use it (the source calls the unidecode library, which is not part of
  this repository);
* Python's seeded `random.Random` is a parameter: a deterministic
  generator structure `RNG` threaded through `roll` explicitly;
* HTTP error signalling (`abort(code)`) becomes `Except Nat`, the `Nat`
  being the status code.
-/

namespace Boggle

/-- The `clean_word` function of boggle_utils.py: the unidecode fold
(abstracted as the parameter `ud`) followed by uppercasing. -/
def clean_word (ud : List Char → List Char) (w : List Char) : List Char :=
  (ud w).map Char.toUpper

/-- Python's `str.replace("QU", "Q")`: left-to-right, non-overlapping
replacement of the two-character sequence QU by Q, continuing after each
replacement. -/
def qCollapse : List Char → List Char
  | 'Q' :: 'U' :: rest => 'Q' :: qCollapse rest
  | c :: rest => c :: qCollapse rest
  | [] => []

/-- The `BoggleWord` wrapper of boggle_utils.py: the cleaned display form
`word` and the precomputed QU→Q equality form `_qnormd`. -/
structure BoggleWord where
  word : List Char
  qnormd : List Char
  deriving DecidableEq

/-- The constructor `BoggleWord.__init__`: clean the raw word and
precompute its equality form. -/
def BoggleWord.make (ud : List Char → List Char) (raw : List Char) : BoggleWord :=
  let w := clean_word ud raw
  ⟨w, qCollapse w⟩

/-- `BoggleWord.__eq__` exactly as the source writes it: it compares
`self._qnormd` with `self._qnormd` (not with `other._qnormd`), so it is
true for any pair of words. -/
def BoggleWord.eq (a : BoggleWord) (_other : BoggleWord) : Bool :=
  a.qnormd == a.qnormd

/-- `BoggleWord.__hash__`: the hash of the equality form, for an arbitrary
underlying string hash `h`. -/
def BoggleWord.hashVal (h : List Char → Nat) (a : BoggleWord) : Nat :=
  h a.qnormd

/-- The equality form of a raw word: cleaned display form with QU collapsed
to Q. This is what `BoggleWord` hashing keys on, and (with a hash that
separates distinct strings) what membership in a Python set or dict of
`BoggleWord` keys effectively compares. -/
def eqform (ud : List Char → List Char) (w : List Char) : List Char :=
  qCollapse (clean_word ud w)

/-- C5: `BoggleWord.__eq__` compares a word's own equality form against
itself, so the words AB and CD compare equal even though their equality
forms differ. (`BoggleWord.__hash__` does follow the equality form, so the
hash half of the claim holds; the equality half is a bug in the source,
whose own docstring promises comparison under the QU→Q substitution.) -/
theorem boggleWord_eq_always_true :
    BoggleWord.eq (BoggleWord.make id ['A', 'B']) (BoggleWord.make id ['C', 'D']) = true
      ∧ (BoggleWord.make id ['A', 'B']).qnormd ≠ (BoggleWord.make id ['C', 'D']).qnormd := by
  decide

/-- C5, the part of the claim the source does satisfy: hashes agree
whenever the equality forms agree, for every underlying hash function. -/
theorem boggleWord_hash_of_eqform :
    ∀ (h : List Char → Nat) (a b : BoggleWord), a.qnormd = b.qnormd →
      BoggleWord.hashVal h a = BoggleWord.hashVal h b := by
  intro h a b hab
  simp [BoggleWord.hashVal, hab]

/-! The path solver (`Pathfinder` of boggle_utils.py). Board cells are
single characters; coordinates are integer (row, col) pairs, as in the
source, where `branch` computes possibly negative neighbour coordinates
and then bounds-checks them. -/

/-- A (row, col) coordinate on the board. -/
abbrev Pos := Int × Int

/-- A board: rows of single-character cells. -/
abbrev Board := List (List Char)

/-- Bounds-checked board lookup at a coordinate. -/
def cellAt (board : Board) (p : Pos) : Option Char :=
  if p.1 < 0 ∨ p.2 < 0 then none
  else (board.get? p.1.toNat).bind fun row => row.get? p.2.toNat

/-- A DFS node of `Pathfinder`: current cell, its letter, the set of cells
already used (`seen`, a list with membership semantics), and the path so
far. The source keeps whole `Letter` objects in `path`; only their
coordinates and labels are ever read, which is what this embedding
stores. -/
structure Letter where
  i : Int
  j : Int
  label : Char
  seen : List Pos := []
  path : List (Pos × Char) := []

/-- The eight neighbour moves of `Pathfinder.branch`, in the source's
order (`dx` outer from -1 to 1, `dy` inner, skipping `dx = dy = 0`; the
move tuple is `(i + dy, j + dx)`). -/
def moves (i j : Int) : List Pos :=
  [(i - 1, j - 1), (i, j - 1), (i + 1, j - 1),
   (i - 1, j), (i + 1, j),
   (i - 1, j + 1), (i, j + 1), (i + 1, j + 1)]

/-- `Pathfinder.branch`: keep the in-bounds unvisited neighbour cells that
hold the next character, extending the node. The source reads
`board[i][j]` after checking `i < len(board)` and `j < len(board[0])`;
`cellAt` combines the access with those bounds. -/
def branch (board : Board) (L : Letter) (c : Char) : List Letter :=
  (moves L.i L.j).filterMap fun m =>
    if 0 ≤ m.1 ∧ m.1 < (board.length : Int) ∧ 0 ≤ m.2 ∧ m.2 < ((board.headD []).length : Int)
        ∧ m ∉ L.seen ∧ cellAt board m = some c then
      some { i := m.1, j := m.2, label := c, seen := (L.i, L.j) :: L.seen,
             path := L.path ++ [((L.i, L.j), L.label)] }
    else none

/-- The inner `recurse` of `Pathfinder.__call__`: consume the remaining
characters by branching, then emit the coordinate path of every candidate
whose accumulated letters spell the word. -/
def recurse (board : Board) (word : List Char) : List Letter → List Char → List (List Pos)
  | letters, [] =>
    letters.filterMap fun cand =>
      if word = cand.path.map Prod.snd ++ [cand.label] then
        some (cand.path.map Prod.fst ++ [(cand.i, cand.j)])
      else none
  | letters, c :: rest =>
    (letters.map fun L => recurse board word (branch board L c) rest).flatten

/-- One row's worth of `initial_points`: a fresh `Letter` at every cell of
this row (row index `i`, first column index `j`) holding the character. -/
def initialsRow (c : Char) (i : Int) : Int → List Char → List Letter
  | _, [] => []
  | j, cell :: rest =>
    (if cell = c then [⟨i, j, c, [], []⟩] else []) ++ initialsRow c i (j + 1) rest

/-- The rows of `initial_points`, starting at row index `i`. -/
def initialsGo (c : Char) : Int → Board → List Letter
  | _, [] => []
  | i, row :: rest => initialsRow c i 0 row ++ initialsGo c (i + 1) rest

/-- The `initial_points` of `Pathfinder.__call__`: a fresh `Letter` at
every board cell holding the first character. -/
def initials (board : Board) (c : Char) : List Letter :=
  initialsGo c 0 board

/-- `Pathfinder.__call__` with the default initial state: words shorter
than 3 or longer than 16 characters yield no paths; otherwise search from
every cell holding the first character, consuming the rest of the word. -/
def pathfinder (board : Board) (word : List Char) : List (List Pos) :=
  if word.length < 3 ∨ 16 < word.length then []
  else
    match word with
    | [] => []
    | c :: rest => recurse board word (initials board c) rest

/-- Chebyshev distance one between two cells: 8-neighbour adjacency. -/
def chebAdj (p q : Pos) : Prop :=
  max (p.1 - q.1).natAbs (p.2 - q.2).natAbs = 1

/-- The (cell, letter) trace of a DFS node: its path followed by the node
itself (what the emitted path and the final spelling check both read). -/
def fullPath (L : Letter) : List (Pos × Char) :=
  L.path ++ [((L.i, L.j), L.label)]

/-- The invariant `recurse` maintains for every node of its working set:
`seen` holds exactly the path's cells, the trace's cells are distinct and
8-connected, and every traced cell holds its letter. -/
def Inv (board : Board) (L : Letter) : Prop :=
  (∀ m, m ∈ L.seen ↔ m ∈ L.path.map Prod.fst)
    ∧ ((fullPath L).map Prod.fst).Nodup
    ∧ List.Chain' chebAdj ((fullPath L).map Prod.fst)
    ∧ ∀ pc ∈ fullPath L, cellAt board pc.1 = some pc.2

theorem moves_spec (i j : Int) : ∀ m ∈ moves i j, chebAdj (i, j) m ∧ m ≠ (i, j) := by
  intro m hm
  simp only [moves, List.mem_cons, List.not_mem_nil, or_false] at hm
  rcases hm with h | h | h | h | h | h | h | h <;> subst h <;>
    refine ⟨?_, ?_⟩ <;> simp [chebAdj, Prod.ext_iff]

theorem branch_mem {board : Board} {L : Letter} {c : Char} {L' : Letter}
    (h : L' ∈ branch board L c) :
    ∃ m ∈ moves L.i L.j,
      m ∉ L.seen ∧ cellAt board m = some c
        ∧ L' = { i := m.1, j := m.2, label := c, seen := (L.i, L.j) :: L.seen,
                 path := L.path ++ [((L.i, L.j), L.label)] } := by
  simp only [branch, List.mem_filterMap] at h
  obtain ⟨m, hm, heq⟩ := h
  by_cases hc : 0 ≤ m.1 ∧ m.1 < (board.length : Int) ∧ 0 ≤ m.2
      ∧ m.2 < ((board.headD []).length : Int) ∧ m ∉ L.seen ∧ cellAt board m = some c
  · rw [if_pos hc] at heq
    exact ⟨m, hm, hc.2.2.2.2.1, hc.2.2.2.2.2, (Option.some_inj.mp heq).symm⟩
  · rw [if_neg hc] at heq
    exact absurd heq (by simp)

theorem branch_inv {board : Board} {L : Letter} {c : Char}
    (hL : Inv board L) : ∀ L' ∈ branch board L c, Inv board L' := by
  intro L' hL'
  obtain ⟨m, hmv, hseen, hcell, rfl⟩ := branch_mem hL'
  obtain ⟨hadj, hne⟩ := moves_spec L.i L.j m hmv
  obtain ⟨hs, hnd, hch, hc⟩ := hL
  have hm_path : m ∉ L.path.map Prod.fst := fun hmem => hseen ((hs m).mpr hmem)
  refine ⟨?_, ?_, ?_, ?_⟩
  · intro x
    simp only [List.mem_cons, List.map_append, List.mem_append, List.map_cons,
      List.map_nil, List.mem_singleton]
    rw [hs x]
    tauto
  · have : ((fullPath ⟨m.1, m.2, c, (L.i, L.j) :: L.seen,
        L.path ++ [((L.i, L.j), L.label)]⟩).map Prod.fst)
        = ((fullPath L).map Prod.fst) ++ [m] := by
      simp [fullPath]
    rw [this]
    have hmfull : m ∉ (fullPath L).map Prod.fst := by
      simp only [fullPath, List.map_append, List.mem_append, List.map_cons, List.map_nil,
        List.mem_singleton]
      rintro (hmem | hmem)
      · exact hm_path hmem
      · exact hne hmem
    rw [List.nodup_append]
    refine ⟨hnd, List.nodup_singleton m, ?_⟩
    intro x hx hxm
    rw [List.mem_singleton] at hxm
    subst hxm
    exact hmfull hx
  · have : ((fullPath ⟨m.1, m.2, c, (L.i, L.j) :: L.seen,
        L.path ++ [((L.i, L.j), L.label)]⟩).map Prod.fst)
        = ((fullPath L).map Prod.fst) ++ [m] := by
      simp [fullPath]
    rw [this, List.chain'_append]
    refine ⟨hch, List.chain'_singleton m, ?_⟩
    intro x hx y hy
    have hlast : ((fullPath L).map Prod.fst).getLast? = some (L.i, L.j) := by
      rw [show ((fullPath L).map Prod.fst) = (L.path.map Prod.fst) ++ [(L.i, L.j)] by
        simp [fullPath]]
      exact List.getLast?_concat _
    rw [hlast] at hx
    simp only [Option.mem_def, Option.some_inj] at hx
    simp only [List.head?_cons, Option.mem_def, Option.some_inj] at hy
    subst hx; subst hy
    exact hadj
  · intro pc hpc
    have hfp : fullPath
        { i := m.1, j := m.2, label := c, seen := (L.i, L.j) :: L.seen,
          path := L.path ++ [((L.i, L.j), L.label)] }
        = fullPath L ++ [(m, c)] := by
      simp [fullPath]
    rw [hfp, List.mem_append, List.mem_singleton] at hpc
    rcases hpc with hmem | rfl
    · exact hc pc hmem
    · exact hcell

theorem recurse_sound {board : Board} {word : List Char} :
    ∀ (chars : List Char) (letters : List Letter),
      (∀ L ∈ letters, Inv board L) →
      ∀ p ∈ recurse board word letters chars,
        ∃ L, Inv board L ∧ p = (fullPath L).map Prod.fst
          ∧ word = (fullPath L).map Prod.snd := by
  intro chars
  induction chars with
  | nil =>
    intro letters hinv p hp
    simp only [recurse, List.mem_filterMap] at hp
    obtain ⟨cand, hcand, heq⟩ := hp
    by_cases hw : word = cand.path.map Prod.snd ++ [cand.label]
    · rw [if_pos hw] at heq
      refine ⟨cand, hinv cand hcand, ?_, ?_⟩
      · simpa [fullPath] using (Option.some_inj.mp heq).symm
      · simpa [fullPath] using hw
    · rw [if_neg hw] at heq
      exact absurd heq (by simp)
  | cons c rest ih =>
    intro letters hinv p hp
    simp only [recurse, List.mem_flatten, List.mem_map] at hp
    obtain ⟨l, ⟨L, hLmem, rfl⟩, hpl⟩ := hp
    exact ih (branch board L c) (fun L' hL' => branch_inv (hinv L hLmem) L' hL') p hpl

theorem initialsRow_spec (c : Char) (i : Int) :
    ∀ (row : List Char) (j : Int) (L : Letter), L ∈ initialsRow c i j row →
      L.i = i ∧ L.label = c ∧ L.seen = [] ∧ L.path = []
        ∧ j ≤ L.j ∧ row.get? (L.j - j).toNat = some c := by
  intro row
  induction row with
  | nil => intro j L hL; simp [initialsRow] at hL
  | cons cell rest ih =>
    intro j L hL
    simp only [initialsRow, List.mem_append] at hL
    rcases hL with hL | hL
    · by_cases hc : cell = c
      · rw [if_pos hc] at hL
        simp only [List.mem_singleton] at hL
        subst hL
        refine ⟨rfl, rfl, rfl, rfl, le_refl _, ?_⟩
        simp [hc]
      · rw [if_neg hc] at hL
        simp at hL
    · obtain ⟨h1, h2, h3, h4, h5, h6⟩ := ih (j + 1) L hL
      refine ⟨h1, h2, h3, h4, by omega, ?_⟩
      have : (L.j - j).toNat = (L.j - (j + 1)).toNat + 1 := by omega
      rw [this]
      simpa using h6

theorem initialsGo_spec (c : Char) :
    ∀ (bd : Board) (i : Int) (L : Letter), L ∈ initialsGo c i bd →
      L.label = c ∧ L.seen = [] ∧ L.path = [] ∧ i ≤ L.i ∧ 0 ≤ L.j
        ∧ ∃ row, bd.get? (L.i - i).toNat = some row ∧ row.get? L.j.toNat = some c := by
  intro bd
  induction bd with
  | nil => intro i L hL; simp [initialsGo] at hL
  | cons row rest ih =>
    intro i L hL
    simp only [initialsGo, List.mem_append] at hL
    rcases hL with hL | hL
    · obtain ⟨h1, h2, h3, h4, h5, h6⟩ := initialsRow_spec c i row 0 L hL
      refine ⟨h2, h3, h4, le_of_eq h1.symm, h5, row, ?_, ?_⟩
      · simp [h1]
      · simpa using h6
    · obtain ⟨h1, h2, h3, h4, h5, row', h6, h7⟩ := ih (i + 1) L hL
      refine ⟨h1, h2, h3, by omega, h5, row', ?_, h7⟩
      have : (L.i - i).toNat = (L.i - (i + 1)).toNat + 1 := by omega
      rw [this]
      simpa using h6

theorem initials_inv (board : Board) (c : Char) :
    ∀ L ∈ initials board c, Inv board L := by
  intro L hL
  obtain ⟨h1, h2, h3, h4, h5, row, h6, h7⟩ := initialsGo_spec c board 0 L hL
  refine ⟨?_, ?_, ?_, ?_⟩
  · intro m; simp [h2, h3]
  · simp [fullPath, h3]
  · simp [fullPath, h3]
  · intro pc hpc
    simp only [fullPath, h3, List.nil_append, List.mem_singleton] at hpc
    subst hpc
    simp only [cellAt]
    rw [if_neg (by push_neg; omega)]
    rw [show (L.i.toNat : Nat) = (L.i - 0).toNat by omega] at *
    rw [h6]
    simpa [h1] using h7

theorem forall₂_of_pairs {R : Pos → Char → Prop} :
    ∀ fp : List (Pos × Char), (∀ pc ∈ fp, R pc.1 pc.2) →
      List.Forall₂ R (fp.map Prod.fst) (fp.map Prod.snd) := by
  intro fp
  induction fp with
  | nil => intro _; simp
  | cons pc rest ih =>
    intro h
    simp only [List.map_cons]
    exact List.Forall₂.cons (h pc (by simp)) (ih fun x hx => h x (by simp [hx]))

/-- C7: every path the solver yields traces the word — same length, each
cell holds the corresponding letter, no repeated cell, consecutive cells
at Chebyshev distance 1 — and words of length below 3 or above 16 yield
no paths. (`List.Forall₂` forces the path and the word to have equal
length.) -/
theorem pathfinder_sound (board : Board) (word : List Char) :
    (∀ p ∈ pathfinder board word,
        List.Forall₂ (fun pos ch => cellAt board pos = some ch) p word
          ∧ p.Nodup ∧ List.Chain' chebAdj p)
      ∧ (word.length < 3 ∨ 16 < word.length → pathfinder board word = []) := by
  constructor
  · intro p hp
    simp only [pathfinder] at hp
    by_cases hlen : word.length < 3 ∨ 16 < word.length
    · rw [if_pos hlen] at hp; simp at hp
    · rw [if_neg hlen] at hp
      match word, hp with
      | c :: rest, hp =>
        obtain ⟨L, hinv, hpcoords, hword⟩ :=
          recurse_sound rest (initials board c) (initials_inv board c) p hp
        obtain ⟨_, hnd, hch, hcells⟩ := hinv
        refine ⟨?_, ?_, ?_⟩
        · rw [hpcoords, hword]
          exact forall₂_of_pairs (fullPath L) hcells
        · rw [hpcoords]; exact hnd
        · rw [hpcoords]; exact hch
  · intro hlen
    simp [pathfinder, if_pos hlen]

/-- A concrete run of C7's theorem: on the board AB / CD the word ABD has
the single path (0,0) (0,1) (1,1), and that path satisfies all the traced
properties; a two-letter word yields no paths. -/
theorem pathfinder_sound_example :
    List.Forall₂ (fun pos ch => cellAt [['A', 'B'], ['C', 'D']] pos = some ch)
        [((0 : Int), (0 : Int)), (0, 1), (1, 1)] ['A', 'B', 'D']
      ∧ List.Nodup [((0 : Int), (0 : Int)), (0, 1), (1, 1)]
      ∧ List.Chain' chebAdj [((0 : Int), (0 : Int)), (0, 1), (1, 1)]
      ∧ pathfinder [['A', 'B'], ['C', 'D']] ['A', 'B'] = [] :=
  ⟨((pathfinder_sound [['A', 'B'], ['C', 'D']] ['A', 'B', 'D']).1
      [((0 : Int), (0 : Int)), (0, 1), (1, 1)] (by decide)).1,
   ((pathfinder_sound [['A', 'B'], ['C', 'D']] ['A', 'B', 'D']).1
      [((0 : Int), (0 : Int)), (0, 1), (1, 1)] (by decide)).2.1,
   ((pathfinder_sound [['A', 'B'], ['C', 'D']] ['A', 'B', 'D']).1
      [((0 : Int), (0 : Int)), (0, 1), (1, 1)] (by decide)).2.2,
   (pathfinder_sound [['A', 'B'], ['C', 'D']] ['A', 'B']).2 (by decide)⟩

/-! The score table (`BaseScores` of boggle_utils.py) and the scorer
(`score_players`). -/

/-- The `BaseScores` table of boggle_utils.py. -/
structure BaseScores where
  lower_lim : Nat
  lower_lim_score : Nat
  upper_lim_score : Nat
  scores : List Nat
  deriving DecidableEq

/-- `BaseScores.score_for_len`: the score of the lower band up to
`lower_lim`, then the `scores` tuple, and `upper_lim_score` once the
index runs off the tuple (the source's IndexError handler). -/
def BaseScores.score_for_len (bs : BaseScores) (len : Nat) : Nat :=
  if len ≤ bs.lower_lim then bs.lower_lim_score
  else (bs.scores.get? (len - bs.lower_lim - 1)).getD bs.upper_lim_score

/-- The `STANDARD_SCORING` table of boggle_utils.py. -/
def STANDARD_SCORING : BaseScores :=
  { lower_lim := 4, lower_lim_score := 1, upper_lim_score := 11, scores := [2, 3, 5] }

/-- `BaseScores.score`: run the solver on the QU→Q form of the (cleaned)
word, and score the display-form length if a first path exists, else 0
with no path. -/
def BaseScores.score (bs : BaseScores) (word : List Char) (board : Board) :
    Nat × Option (List Pos) :=
  match pathfinder board (qCollapse word) with
  | [] => (0, none)
  | path :: _ => (bs.score_for_len word.length, some path)

/-- C8: the standard table scores display-form lengths as 1 for length at
most 4, then 2, 3, 5, and 11 from length 8 on; the raw score of a word is
that base score when the solver finds a path and 0 otherwise, and the
stored path is the solver's first path. -/
theorem standard_scoring_spec :
    (∀ n : Nat, STANDARD_SCORING.score_for_len n
        = if n ≤ 4 then 1 else if n = 5 then 2 else if n = 6 then 3
          else if n = 7 then 5 else 11)
      ∧ (∀ (word : List Char) (board : Board),
          (STANDARD_SCORING.score word board).1
            = if pathfinder board (qCollapse word) = [] then 0
              else STANDARD_SCORING.score_for_len word.length)
      ∧ (∀ (word : List Char) (board : Board),
          (STANDARD_SCORING.score word board).2
            = (pathfinder board (qCollapse word)).head?) := by
  refine ⟨?_, ?_, ?_⟩
  · intro n
    by_cases h4 : n ≤ 4
    · simp [BaseScores.score_for_len, STANDARD_SCORING, h4]
    · rw [BaseScores.score_for_len, STANDARD_SCORING]
      simp only [if_neg h4]
      by_cases h5 : n = 5
      · subst h5; rfl
      · rw [if_neg h5]
        by_cases h6 : n = 6
        · subst h6; rfl
        · rw [if_neg h6]
          by_cases h7 : n = 7
          · subst h7; rfl
          · rw [if_neg h7]
            have h8 : 3 ≤ n - 4 - 1 := by omega
            rw [List.get?_eq_none.mpr (by simpa using h8)]
            rfl
  · intro word board
    rw [BaseScores.score]
    rcases hpf : pathfinder board (qCollapse word) with _ | ⟨p, rest⟩ <;> simp [hpf]
  · intro word board
    rw [BaseScores.score]
    rcases hpf : pathfinder board (qCollapse word) with _ | ⟨p, rest⟩ <;> simp [hpf]

/-- A concrete lookup in C8's theorem: a ten-letter word scores 11. -/
theorem standard_scoring_spec_witness :
    STANDARD_SCORING.score_for_len 10
      = if 10 ≤ 4 then 1 else if 10 = 5 then 2 else if 10 = 6 then 3
        else if 10 = 7 then 5 else 11 :=
  standard_scoring_spec.1 10

/-! The round scorer (`score_players` and `duplicate_entries` of
boggle_utils.py). A Python set of `BoggleWord` keys buckets by the hash of
the equality form; since `__eq__` is constantly true, membership in such a
set holds exactly when some stored element shares the probe's hash bucket.
With the reference hash (which separates the distinct equality forms that
occur in a round), that is equality of equality forms, which is how
`blacklist` membership is embedded here. -/

/-- A `Word` row as `score_players` mutates it: the stored display-form
word and the nullable scoring outputs. -/
structure WordRow where
  word : List Char
  score : Option Nat := none
  duplicate : Option Bool := none
  dictionary_valid : Option Bool := none
  path_array : Option (List Pos) := none
  deriving DecidableEq

/-- The loop of `duplicate_entries`: yield every element already seen,
then record it as seen. -/
def dupGo {α : Type} [DecidableEq α] (seen : List α) : List α → List α
  | [] => []
  | i :: rest => if i ∈ seen then i :: dupGo (i :: seen) rest else dupGo (i :: seen) rest

/-- `duplicate_entries` of boggle_utils.py: every element of the iterable
that occurs after an earlier equal element. -/
def duplicate_entries {α : Type} [DecidableEq α] (l : List α) : List α :=
  dupGo [] l

/-- `score_players` of boggle_utils.py: blacklist the equality forms
occurring more than once across all players, then fill each word row's
score, path, duplicate flag and dictionary flag. -/
def score_players (ud : List Char → List Char) (words_by_player : List (List WordRow))
    (board : Board) (base_scores : BaseScores) (dictionary : Option (List (List Char))) :
    List (List WordRow) :=
  let blacklist := duplicate_entries (words_by_player.flatten.map fun w => eqform ud w.word)
  words_by_player.map fun pl => pl.map fun w =>
    let cleaned := clean_word ud w.word
    let sp := base_scores.score cleaned board
    { w with
      score := some sp.1
      duplicate := some (decide (qCollapse cleaned ∈ blacklist))
      dictionary_valid := some (dictionary.elim true fun d => d.contains cleaned)
      path_array := sp.2 }

/-- Occurrence count of an element, via `countP` (kept instance-neutral on
purpose: every counting statement below uses this one notion). -/
def occ {α : Type} [DecidableEq α] (e : α) (l : List α) : Nat :=
  l.countP fun x => decide (x = e)

theorem occ_cons_self {α : Type} [DecidableEq α] (e : α) (l : List α) :
    occ e (e :: l) = occ e l + 1 := by
  simp [occ]

theorem occ_cons_of_ne {α : Type} [DecidableEq α] {e i : α} (h : e ≠ i) (l : List α) :
    occ e (i :: l) = occ e l := by
  simp [occ, List.countP_cons, decide_eq_false (Ne.symm h)]

theorem sum_thresholds {α : Type} (cnt : α → Nat) :
    ∀ l : List α, (∀ x ∈ l, cnt x ≤ 1) →
      ((1 ≤ (l.map cnt).sum ↔ 1 ≤ l.countP fun x => decide (1 ≤ cnt x))
        ∧ (2 ≤ (l.map cnt).sum ↔ 2 ≤ l.countP fun x => decide (1 ≤ cnt x))) := by
  intro l
  induction l with
  | nil => simp
  | cons x rest ih =>
    intro h
    have hx := h x (by simp)
    have ihr := ih fun y hy => h y (by simp [hy])
    rw [List.map_cons, List.sum_cons, List.countP_cons]
    rcases Nat.le_one_iff_eq_zero_or_eq_one.mp hx with h0 | h1
    · simpa [h0] using ihr
    · rw [h1]
      simp only [decide_eq_true_eq, if_pos (le_refl 1)]
      constructor
      · exact iff_of_true (by omega) (by omega)
      · constructor
        · intro h2
          have hs : 1 ≤ (rest.map cnt).sum := by omega
          have := ihr.1.mp hs
          omega
        · intro h2
          have hc : 1 ≤ rest.countP fun x => decide (1 ≤ cnt x) := by omega
          have := ihr.1.mpr hc
          omega

theorem mem_dupGo {α : Type} [DecidableEq α] (e : α) :
    ∀ (l : List α) (seen : List α),
      e ∈ dupGo seen l ↔ (e ∈ seen ∧ 1 ≤ occ e l) ∨ 2 ≤ occ e l := by
  intro l
  induction l with
  | nil => intro seen; simp [dupGo, occ]
  | cons i rest ih =>
    intro seen
    by_cases hi : i ∈ seen
    · rw [dupGo, if_pos hi]
      by_cases hei : e = i
      · subst hei
        refine iff_of_true (by simp) (Or.inl ⟨hi, ?_⟩)
        rw [occ_cons_self]
        omega
      · simp only [List.mem_cons, hei, false_or, ih (i :: seen),
          occ_cons_of_ne hei, or_and_right]
    · rw [dupGo, if_neg hi]
      by_cases hei : e = i
      · subst hei
        rw [ih (e :: seen), occ_cons_self]
        simp only [List.mem_cons, true_or, true_and, hi, false_and, false_or]
        omega
      · rw [ih (i :: seen), occ_cons_of_ne hei]
        simp only [List.mem_cons, hei, false_or]

theorem mem_duplicate_entries {α : Type} [DecidableEq α] (e : α) (l : List α) :
    e ∈ duplicate_entries l ↔ 2 ≤ occ e l := by
  rw [duplicate_entries, mem_dupGo]
  simp

theorem occ_flatten {α : Type} [DecidableEq α] (e : α) :
    ∀ L : List (List α), occ e L.flatten = (L.map fun l => occ e l).sum := by
  intro L
  induction L with
  | nil => simp [occ]
  | cons l rest ih => simp [occ, List.countP_append, ih]

theorem occ_le_one_of_nodup {α : Type} [DecidableEq α] (e : α) :
    ∀ l : List α, l.Nodup → occ e l ≤ 1 := by
  intro l
  induction l with
  | nil => intro _; simp [occ]
  | cons a rest ih =>
    intro hnd
    rw [List.nodup_cons] at hnd
    by_cases hae : e = a
    · subst hae
      rw [occ_cons_self]
      have : occ e rest = 0 := by
        rw [occ, List.countP_eq_zero]
        intro b hb
        simp only [decide_eq_true_eq]
        intro hbe
        subst hbe
        exact hnd.1 hb
      omega
    · rw [occ_cons_of_ne hae]
      exact ih hnd.2

theorem occ_pos_iff_mem {α : Type} [DecidableEq α] (e : α) (l : List α) :
    1 ≤ occ e l ↔ e ∈ l := by
  rw [show (1 ≤ occ e l) ↔ (0 < occ e l) from Iff.rfl, occ, List.countP_pos_iff]
  simp

theorem score_players_word_shape
    (ud : List Char → List Char) (wbp : List (List WordRow)) (board : Board)
    (bs : BaseScores) (dict : Option (List (List Char)))
    {pl : List WordRow} {w : WordRow}
    (h : pl ∈ score_players ud wbp board bs dict) (hw : w ∈ pl) :
    w.duplicate
      = some (decide (2 ≤ occ (eqform ud w.word) (wbp.flatten.map fun v => eqform ud v.word))) := by
  simp only [score_players, List.mem_map] at h
  obtain ⟨pl', hpl', rfl⟩ := h
  simp only [List.mem_map] at hw
  obtain ⟨w', hw', rfl⟩ := hw
  dsimp only
  rw [Option.some_inj, decide_eq_decide]
  exact mem_duplicate_entries _ _

theorem cross_player_count
    (ud : List Char → List Char) (e : List Char) (wbp : List (List WordRow))
    (hn : ∀ pl ∈ wbp, (pl.map fun w => eqform ud w.word).Nodup) :
    (2 ≤ occ e (wbp.flatten.map fun v => eqform ud v.word) ↔
      2 ≤ wbp.countP fun pl => decide (e ∈ pl.map fun w => eqform ud w.word)) := by
  have hmf : (wbp.flatten.map fun v => eqform ud v.word)
      = (wbp.map fun pl => pl.map fun w => eqform ud w.word).flatten := by
    simp
  rw [hmf, occ_flatten, List.map_map]
  have hle : ∀ pl ∈ wbp,
      ((fun pl => occ e (pl.map fun w => eqform ud w.word)) pl) ≤ 1 := by
    intro pl hpl
    exact occ_le_one_of_nodup e _ (hn pl hpl)
  have hsum := (sum_thresholds (fun pl => occ e (pl.map fun w => eqform ud w.word)) wbp hle).2
  have hmap : wbp.map ((fun l => occ e l) ∘ fun pl => pl.map fun w => eqform ud w.word)
      = wbp.map fun pl => occ e (pl.map fun w => eqform ud w.word) := by
    simp [Function.comp]
  rw [hmap, hsum]
  have hcp : wbp.countP
        (fun pl => decide (1 ≤ occ e (pl.map fun w => eqform ud w.word)))
      = wbp.countP fun pl => decide (e ∈ pl.map fun w => eqform ud w.word) := by
    refine List.countP_congr fun pl _ => ?_
    simp only [decide_eq_true_eq]
    exact occ_pos_iff_mem e _
  rw [hcp]

/-- C2: after the scorer runs on a round's submissions (each player's word
list carrying pairwise distinct equality forms, which the submit endpoint
guarantees), a word is flagged duplicate exactly when its equality form
occurs in at least two players' lists; in particular two words with the
same equality form receive the same duplicate flag, whichever players
submitted them. -/
theorem score_players_duplicates
    (ud : List Char → List Char) (wbp : List (List WordRow)) (board : Board)
    (bs : BaseScores) (dict : Option (List (List Char)))
    (hn : ∀ pl ∈ wbp, (pl.map fun w => eqform ud w.word).Nodup)
    (pl₁ pl₂ : List WordRow) (w₁ w₂ : WordRow)
    (h₁ : pl₁ ∈ score_players ud wbp board bs dict) (hw₁ : w₁ ∈ pl₁)
    (h₂ : pl₂ ∈ score_players ud wbp board bs dict) (hw₂ : w₂ ∈ pl₂) :
    (w₁.duplicate = some true ↔
        2 ≤ wbp.countP fun pl => decide (eqform ud w₁.word ∈ pl.map fun w => eqform ud w.word))
      ∧ (eqform ud w₁.word = eqform ud w₂.word → w₁.duplicate = w₂.duplicate) := by
  have hd₁ := score_players_word_shape ud wbp board bs dict h₁ hw₁
  have hd₂ := score_players_word_shape ud wbp board bs dict h₂ hw₂
  constructor
  · rw [hd₁, Option.some_inj, decide_eq_true_eq]
    exact cross_player_count ud (eqform ud w₁.word) wbp hn
  · intro he
    rw [hd₁, hd₂, he]

/-- A one-word submission from each of two players, used to exercise C2's
theorem at a concrete input. -/
def c2wbp : List (List WordRow) :=
  [[{ word := ['C', 'A', 'T'] }], [{ word := ['C', 'A', 'T'] }]]

/-- The row the scorer produces for CAT in `c2wbp` on the empty board: raw
score 0 (no path), flagged duplicate, no dictionary configured. -/
def c2row : WordRow :=
  { word := ['C', 'A', 'T'], score := some 0, duplicate := some true,
    dictionary_valid := some true, path_array := none }

theorem score_players_duplicates_witness :
    (c2row.duplicate = some true ↔
        2 ≤ c2wbp.countP fun pl => decide (eqform id c2row.word ∈ pl.map fun w => eqform id w.word))
      ∧ (eqform id c2row.word = eqform id c2row.word → c2row.duplicate = c2row.duplicate) :=
  score_players_duplicates id c2wbp [] STANDARD_SCORING none (by decide)
    [c2row] [c2row] c2row c2row (by decide) (by decide) (by decide) (by decide)

/-! The board generator (`roll` of boggle_utils.py). The seeded
`random.Random` is abstracted as a deterministic generator: a state type
with the two operations the source uses, `sample` (one permutation draw)
and `randrange` (one bounded draw). A die is its list of faces (single
characters: Python indexing of the die string). The `while True` loop
becomes fuel-indexed recursion; the dimension `ValueError`s and fuel
exhaustion both yield `none`. -/

/-- The interface of the seeded PRNG: drawing a permutation of a list and
drawing a bounded natural, each returning the advanced generator state. -/
structure RNG (σ : Type) where
  sample : σ → List (List Char) → List (List Char) × σ
  randrange : σ → Nat → Nat × σ

/-- One face pick per die, left to right (`die[rng.randrange(len(die))]`;
the `getD` default is unreachable when dice are non-empty and `randrange`
respects its bound). -/
def pickFaces {σ : Type} (g : RNG σ) : List (List Char) → σ → List Char × σ
  | [], s => ([], s)
  | die :: rest, s =>
    let ks := g.randrange s die.length
    let vs := pickFaces g rest ks.2
    ((die.get? ks.1).getD ' ' :: vs.1, vs.2)

/-- Membership of a single-character cell in the vowel string AEIOU (for
the one-character cells `roll` lays out, Python's substring test is
exactly this membership). -/
def isVowel (c : Char) : Bool :=
  c ∈ ['A', 'E', 'I', 'O', 'U']

/-- The source's `vowel_count / num_dice >= vowel_proportion` test at the
default proportion 0.375 = 3/8, written exactly over the integers (the
float comparison agrees at these magnitudes). -/
def vowel_ok (flat : List Char) (numDice : Nat) : Bool :=
  decide (3 * numDice ≤ 8 * flat.countP isVowel)

/-- The `while True` loop of `roll`: permute the dice, pick one face per
die, and accept the flat board once the vowel proportion passes. -/
def rollLoop {σ : Type} (g : RNG σ) (dice : List (List Char)) : σ → Nat → Option (List Char)
  | _, 0 => none
  | s, fuel + 1 =>
    let rd := g.sample s dice
    let fl := pickFaces g rd.1 rd.2
    if vowel_ok fl.1 dice.length then some fl.1 else rollLoop g dice fl.2 fuel

/-- Row-major layout: `rows` consecutive slices of `cols` cells. -/
def chunksOf (cols : Nat) : Nat → List Char → List (List Char)
  | 0, _ => []
  | r + 1, l => l.take cols :: chunksOf cols r (l.drop cols)

/-- The integer square root test of `roll` (`round(math.sqrt(n))` followed
by the `sq * sq == n` check): the root when the argument is a perfect
square, written as an executable search so it evaluates by reduction. -/
def perfectSqrt (n : Nat) : Option Nat :=
  (List.range (n + 1)).find? fun k => k * k == n

/-- The dimension logic at the top of `roll`: explicit dims must multiply
out to the dice count, otherwise the dice count must be a perfect square
(both `ValueError`s become `none`). -/
def resolveDims (numDice : Nat) : Option (Nat × Nat) → Option (Nat × Nat)
  | some (r, c) => if r * c = numDice then some (r, c) else none
  | none =>
    match perfectSqrt numDice with
    | some sq => some (sq, sq)
    | none => none

/-- `roll` of boggle_utils.py: resolve the dimensions, run the
rejection-sampling loop, and lay the accepted flat board out row-major. -/
def roll {σ : Type} (g : RNG σ) (s : σ) (dice_config : List (List Char))
    (board_dims : Option (Nat × Nat)) (fuel : Nat) : Option ((Nat × Nat) × Board) :=
  match resolveDims dice_config.length board_dims with
  | none => none
  | some (rows, cols) =>
    match rollLoop g dice_config s fuel with
    | none => none
    | some flat => some ((rows, cols), chunksOf cols rows flat)

/-- The generation step claim C6 describes, written to the spec's words:
the same five steps — seeded PRNG, one permutation, one face pick per
die, row-major layout — with no vowel-proportion rejection step. -/
def roll_claim {σ : Type} (g : RNG σ) (s : σ) (dice_config : List (List Char))
    (board_dims : Option (Nat × Nat)) : Option ((Nat × Nat) × Board) :=
  match resolveDims dice_config.length board_dims with
  | none => none
  | some (rows, cols) =>
    let rd := g.sample s dice_config
    let fl := pickFaces g rd.1 rd.2
    some ((rows, cols), chunksOf cols rows fl.1)

/-- A concrete deterministic generator over a stream of naturals: sampling
returns the list unchanged, a bounded draw consumes one stream element. -/
def streamRNG : RNG (List Nat) where
  sample s l := (l, s)
  randrange s n := (s.headD 0 % n, s.tail)

/-- Four two-faced dice whose first face is a consonant and second a
vowel. -/
def c6dice : List (List Char) :=
  [['B', 'A'], ['B', 'A'], ['B', 'A'], ['B', 'A']]

/-- C6, refuted: with draws 0,0,0,0,1,1,1,1 the first sampled board BBBB
fails the 3/8 vowel-proportion check, so `roll` rejects it and emits the
second sample AAAA, while the claim's five-step generation (no rejection)
emits BBBB: the source does carry a reject-and-resample step. -/
theorem roll_differs_from_claim :
    roll streamRNG [0, 0, 0, 0, 1, 1, 1, 1] c6dice none 8
        = some ((2, 2), [['A', 'A'], ['A', 'A']])
      ∧ roll_claim streamRNG [0, 0, 0, 0, 1, 1, 1, 1] c6dice none
        = some ((2, 2), [['B', 'B'], ['B', 'B']])
      ∧ ([['A', 'A'], ['A', 'A']] : Board) ≠ [['B', 'B'], ['B', 'B']] := by
  decide

theorem pickFaces_length {σ : Type} (g : RNG σ) :
    ∀ (ds : List (List Char)) (s : σ), ((pickFaces g ds s).1).length = ds.length := by
  intro ds
  induction ds with
  | nil => intro s; rfl
  | cons die rest ih => intro s; simp [pickFaces, ih]

theorem pickFaces_mem {σ : Type} (g : RNG σ)
    (hrand : ∀ (s : σ) (n : Nat), 0 < n → (g.randrange s n).1 < n) :
    ∀ (ds : List (List Char)) (s : σ), (∀ die ∈ ds, die ≠ []) →
      ∀ ch ∈ (pickFaces g ds s).1, ∃ die ∈ ds, ch ∈ die := by
  intro ds
  induction ds with
  | nil => intro s _ ch hch; simp [pickFaces] at hch
  | cons die rest ih =>
    intro s hne ch hch
    simp only [pickFaces, List.mem_cons] at hch
    rcases hch with rfl | hch
    · have hd : die ≠ [] := hne die (by simp)
      have hlen : 0 < die.length := List.length_pos.mpr hd
      have hk := hrand s die.length hlen
      have hf := List.get?_eq_get (l := die) hk
      refine ⟨die, by simp, ?_⟩
      rw [hf, Option.getD_some]
      exact List.get_mem die _ hk
    · obtain ⟨d, hd, hchd⟩ := ih _ (fun d hd => hne d (by simp [hd])) ch hch
      exact ⟨d, by simp [hd], hchd⟩

theorem rollLoop_sound {σ : Type} (g : RNG σ) (dice : List (List Char)) :
    ∀ (fuel : Nat) (s : σ) (flat : List Char),
      rollLoop g dice s fuel = some flat →
        vowel_ok flat dice.length = true
          ∧ ∃ s₁ : σ, flat = (pickFaces g (g.sample s₁ dice).1 (g.sample s₁ dice).2).1 := by
  intro fuel
  induction fuel with
  | zero => intro s flat h; simp [rollLoop] at h
  | succ n ih =>
    intro s flat h
    rw [rollLoop] at h
    by_cases hv : vowel_ok (pickFaces g (g.sample s dice).1 (g.sample s dice).2).1 dice.length
    · rw [if_pos hv] at h
      have := Option.some_inj.mp h
      subst this
      exact ⟨hv, s, rfl⟩
    · rw [if_neg hv] at h
      exact ih _ flat h

theorem chunksOf_shape (cols : Nat) :
    ∀ (rows : Nat) (l : List Char), l.length = rows * cols →
      (chunksOf cols rows l).map List.length = List.replicate rows cols
        ∧ (chunksOf cols rows l).flatten = l := by
  intro rows
  induction rows with
  | zero =>
    intro l hl
    have : l = [] := List.length_eq_zero.mp (by simpa using hl)
    subst this
    simp [chunksOf]
  | succ r ih =>
    intro l hl
    have hc : cols ≤ l.length := by
      rw [hl, Nat.succ_mul]
      omega
    have htake : (l.take cols).length = cols := by
      rw [List.length_take]
      omega
    have hdrop : (l.drop cols).length = r * cols := by
      rw [List.length_drop, hl, Nat.succ_mul]
      omega
    obtain ⟨ihm, ihf⟩ := ih (l.drop cols) hdrop
    refine ⟨?_, ?_⟩
    · simp [chunksOf, htake, ihm, List.replicate_succ]
    · simp [chunksOf, ihf]

theorem resolveDims_spec (numDice : Nat) :
    ∀ (dims : Option (Nat × Nat)) (r c : Nat), resolveDims numDice dims = some (r, c) →
      r * c = numDice ∧ (dims = none → r = c) := by
  intro dims r c h
  match dims with
  | some (r₀, c₀) =>
    rw [resolveDims] at h
    by_cases he : r₀ * c₀ = numDice
    · rw [if_pos he] at h
      obtain ⟨rfl, rfl⟩ := Prod.mk.injEq .. ▸ Option.some_inj.mp h
      exact ⟨he, by simp⟩
    · rw [if_neg he] at h
      simp at h
  | none =>
    rw [resolveDims] at h
    rcases hfind : perfectSqrt numDice with _ | sq
    · rw [hfind] at h
      simp at h
    · rw [hfind] at h
      have hsq : sq * sq = numDice := by
        have := List.find?_some hfind
        simpa using this
      have h' := Option.some_inj.mp h
      obtain rfl : sq = r := congrArg Prod.fst h'
      obtain rfl : sq = c := congrArg Prod.snd h'
      exact ⟨hsq, fun _ => rfl⟩

/-- C6, amended: whenever `roll` emits a board, the dimensions multiply
out to the dice count (equal when inferred from a square dice count), the
board is a row-major `rows × cols` layout whose cells are faces of the
dice, and the flattened board passes the 3/8 vowel-proportion test — the
rejection step the source retains. Determinism holds by construction:
`roll` is a function of the generator, seed state, dice and dims. -/
theorem roll_shape {σ : Type} (g : RNG σ)
    (hperm : ∀ (s : σ) (l : List (List Char)), ((g.sample s l).1).Perm l)
    (hrand : ∀ (s : σ) (n : Nat), 0 < n → (g.randrange s n).1 < n)
    (s : σ) (dice : List (List Char)) (dims : Option (Nat × Nat)) (fuel : Nat)
    (r c : Nat) (board : Board)
    (hne : ∀ die ∈ dice, die ≠ [])
    (h : roll g s dice dims fuel = some ((r, c), board)) :
    r * c = dice.length
      ∧ board.map List.length = List.replicate r c
      ∧ vowel_ok board.flatten dice.length = true
      ∧ (∀ ch ∈ board.flatten, ∃ die ∈ dice, ch ∈ die)
      ∧ (dims = none → r = c) := by
  rw [roll] at h
  rcases hdims : resolveDims dice.length dims with _ | ⟨r₀, c₀⟩
  · rw [hdims] at h; simp at h
  · rw [hdims] at h
    rcases hloop : rollLoop g dice s fuel with _ | flat
    · rw [hloop] at h; simp at h
    · rw [hloop] at h
      have h' := Option.some_inj.mp h
      obtain rfl : chunksOf c₀ r₀ flat = board := congrArg Prod.snd h'
      obtain rfl : r₀ = r := congrArg (fun x => x.1.1) h'
      obtain rfl : c₀ = c := congrArg (fun x => x.1.2) h'
      obtain ⟨hrc, hsq⟩ := resolveDims_spec dice.length dims r₀ c₀ hdims
      obtain ⟨hv, s₁, hflat⟩ := rollLoop_sound g dice fuel s flat hloop
      have hplen : ((g.sample s₁ dice).1).length = dice.length :=
        (hperm s₁ dice).length_eq
      have hflen : flat.length = r₀ * c₀ := by
        rw [hflat, pickFaces_length, hplen, hrc]
      obtain ⟨hshape, hflatten⟩ := chunksOf_shape c₀ r₀ flat hflen
      refine ⟨hrc, hshape, ?_, ?_, hsq⟩
      · rw [hflatten]
        exact hv
      · rw [hflatten]
        intro ch hch
        have hne' : ∀ die ∈ (g.sample s₁ dice).1, die ≠ [] := by
          intro die hd
          exact hne die ((hperm s₁ dice).mem_iff.mp hd)
        rw [hflat] at hch
        obtain ⟨die, hd, hchd⟩ := pickFaces_mem g hrand _ _ hne' ch hch
        exact ⟨die, (hperm s₁ dice).mem_iff.mp hd, hchd⟩

/-- A concrete run of C6's amended theorem on `c6dice` with the stream
generator: the emitted 2×2 board AAAA has square dimensions, all cells
drawn from the dice, and passes the vowel check. -/
theorem roll_shape_witness :
    (2 : Nat) * 2 = c6dice.length
      ∧ ([['A', 'A'], ['A', 'A']] : Board).map List.length = List.replicate 2 2
      ∧ vowel_ok ([['A', 'A'], ['A', 'A']] : Board).flatten c6dice.length = true
      ∧ (∀ ch ∈ ([['A', 'A'], ['A', 'A']] : Board).flatten, ∃ die ∈ c6dice, ch ∈ die)
      ∧ ((none : Option (Nat × Nat)) = none → (2 : Nat) = 2) :=
  roll_shape streamRNG (fun s l => List.Perm.refl l)
    (fun s n hn => Nat.mod_lt _ hn) [0, 0, 0, 0, 1, 1, 1, 1] c6dice none 8 2 2
    [['A', 'A'], ['A', 'A']] (by decide) (by decide)

/-! The session state machine of boggle.py: the volatile session row, the
round-advance branch of `manage_session`, the DELETE and PUT branches of
`play`, and the `session_state` projection. Timestamps are integer
seconds; `round_minutes` enters as `60 * round_minutes`. -/

/-- The volatile fields of a `BoggleSession` row: round number, round
start (nullable timestamp), the tri-state scoring flag (`none` = unset,
`some false` = scoring in progress, `some true` = scored) and the round
duration in minutes. -/
structure SessionRow where
  round_no : Nat
  round_start : Option Int
  round_scored : Option Bool
  round_minutes : Int
  deriving DecidableEq

/-- The client-visible `Status` enum of boggle.py. -/
inductive Status where
  | INITIAL
  | PRE_START
  | PLAYING
  | SCORING
  | SCORED
  deriving DecidableEq

/-- The POST (advance-round) branch of `manage_session`: 410 when the
session row is gone, 409 without players, 409 mid-scoring, and otherwise
the round advances: scoring flag reset, round start now + countdown,
round number incremented. -/
def manage_session_post (sess : Option SessionRow) (hasPlayers : Bool)
    (now untilStart : Int) : Except Nat SessionRow :=
  match sess with
  | none => .error 410
  | some s =>
    if ¬hasPlayers then .error 409
    else if s.round_scored = some false then .error 409
    else .ok { s with round_scored := none,
                      round_start := some (now + untilStart),
                      round_no := s.round_no + 1 }

/-- C1: the advance-round request signals 410 on a destroyed session, 409
without players or mid-scoring, and otherwise resets `round_scored` to
unset, sets `round_start` to now + countdown and increments `round_no` by
exactly one. -/
theorem manage_session_post_spec :
    (∀ (hasPlayers : Bool) (now cd : Int),
        manage_session_post none hasPlayers now cd = .error 410)
      ∧ (∀ (s : SessionRow) (now cd : Int),
          manage_session_post (some s) false now cd = .error 409)
      ∧ (∀ (s : SessionRow) (now cd : Int), s.round_scored = some false →
          manage_session_post (some s) true now cd = .error 409)
      ∧ (∀ (s : SessionRow) (now cd : Int), s.round_scored ≠ some false →
          manage_session_post (some s) true now cd
            = .ok { s with round_scored := none, round_start := some (now + cd),
                           round_no := s.round_no + 1 }) := by
  refine ⟨fun _ _ _ => rfl, fun _ _ _ => rfl, ?_, ?_⟩
  · intro s now cd hs
    simp [manage_session_post, hs]
  · intro s now cd hs
    simp [manage_session_post, hs]

/-- A live session row in round 1: started at time 0, not yet scored. -/
def liveSess : SessionRow :=
  { round_no := 1, round_start := some 0, round_scored := none, round_minutes := 3 }

/-- A concrete advance of `liveSess` at time 100 with a 15 second
countdown: round 2, armed to start at 115, scoring flag reset. -/
theorem manage_session_post_spec_witness :
    manage_session_post (some liveSess) true 100 15
      = .ok { liveSess with round_scored := none, round_start := some (100 + 15),
                            round_no := liveSess.round_no + 1 } :=
  manage_session_post_spec.2.2.2 liveSess 100 15 (by decide)

/-- The DELETE (leave) branch of `play`: 410 when the session is gone, 409
mid-scoring, and otherwise the deletion the source actually issues —
`Player.query.filter(Player.id == session_id).delete()`, which removes the
player whose id equals the *session* id, not the requesting player. -/
def play_delete (sess : Option SessionRow) (players : List Nat)
    (session_id _player_id : Nat) : Except Nat (List Nat) :=
  match sess with
  | none => .error 410
  | some s =>
    if s.round_scored = some false then .error 409
    else .ok (players.filter fun pid => pid != session_id)

/-- The PUT (submit) branch of `play`, after token checking and with a
well-formed JSON body: 410 when the session is gone, 410 when the player
record does not exist, 409 when the round has not started, 409 when
scoring has started or the grace deadline passed, 409 on a wrong round
number, 409 on a duplicate submission (the U1 integrity error), and
acceptance otherwise. -/
def play_put (sess : Option SessionRow) (players : List Nat) (player_id : Nat)
    (now grace : Int) (round_no_supplied : Nat) (alreadySubmitted : Bool) :
    Except Nat Unit :=
  match sess with
  | none => .error 410
  | some s =>
    if ¬players.contains player_id then .error 410
    else
      match s.round_start with
      | none => .error 409
      | some rs =>
        if s.round_scored ≠ none ∨ rs + 60 * s.round_minutes + grace < now then .error 409
        else if round_no_supplied ≠ s.round_no then .error 409
        else if alreadySubmitted then .error 409
        else .ok ()

/-- A live session row in round 1: started at time 0, not yet scored. -/
def c4sess : SessionRow :=
  { round_no := 1, round_start := some 0, round_scored := none, round_minutes := 3 }

/-- C4, the code bug: in a session with id 1 whose only player has id 2,
the player's leave succeeds (204) yet deletes nothing — the source filters
on `Player.id == session_id` — so the player list still contains player 2
and a subsequent submit by player 2 is accepted rather than rejected
with 410. (The repository's own test only passes because its session id
and player id are both 1.) -/
theorem play_delete_wrong_player :
    play_delete (some c4sess) [2] 1 2 = .ok [2]
      ∧ play_put (some c4sess) [2] 2 30 10 1 false = .ok () :=
  ⟨rfl, rfl⟩

/-- The `session_state` read projection of boggle.py, reduced to the
status and the dispatch decision: INITIAL without a round start, PRE_START
before it, PLAYING before round end unless everyone submitted, and
otherwise a scoring job is dispatched exactly when (everyone submitted or
the grace deadline strictly passed) and the scoring flag is unset; the
status is then SCORED when scores are committed and SCORING otherwise. -/
def session_state (sess : Option SessionRow) (now : Int)
    (allSubmitted : Bool) (grace : Int) : Except Nat (Status × Bool) :=
  match sess with
  | none => .error 410
  | some s =>
    match s.round_start with
    | none => .ok (Status.INITIAL, false)
    | some rs =>
      if now < rs then .ok (Status.PRE_START, false)
      else if now < rs + 60 * s.round_minutes ∧ ¬allSubmitted then .ok (Status.PLAYING, false)
      else
        let dispatch :=
          decide ((allSubmitted = true ∨ rs + 60 * s.round_minutes + grace < now)
            ∧ s.round_scored = none)
        if s.round_scored = some true then .ok (Status.SCORED, dispatch)
        else .ok (Status.SCORING, dispatch)

/-- The dispatch component of a projection result. -/
def dispatched : Except Nat (Status × Bool) → Bool
  | .ok sd => sd.2
  | .error _ => false

/-- C9, refuted: at the exact round end (now = 180 = round_start + 60 · 3),
with a submission still missing and `round_scored` unset, the read
projection does not dispatch a scoring job — the source requires now to
exceed round_end + grace_period, not now ≥ round_end. -/
theorem session_state_no_dispatch_at_round_end :
    session_state (some c4sess) 180 false 10 = .ok (Status.SCORING, false)
      ∧ c4sess.round_start = some 0
      ∧ ((0 : Int) + 60 * c4sess.round_minutes ≤ 180)
      ∧ c4sess.round_scored = none := by
  refine ⟨rfl, rfl, by decide, rfl⟩

/-- C9, amended: a read dispatches a scoring job exactly when the round
has started, and either every player has submitted or now strictly
exceeds round_end + grace_period, and `round_scored` is unset. -/
theorem session_state_dispatch_iff (sess : Option SessionRow) (now : Int)
    (allSubmitted : Bool) (grace : Int) (hg : 0 ≤ grace) :
    dispatched (session_state sess now allSubmitted grace) = true ↔
      ∃ s rs, sess = some s ∧ s.round_start = some rs ∧ rs ≤ now
        ∧ (allSubmitted = true ∨ rs + 60 * s.round_minutes + grace < now)
        ∧ s.round_scored = none := by
  match sess with
  | none =>
    simp [session_state, dispatched]
  | some s =>
    rw [session_state]
    match hrs : s.round_start with
    | none =>
      simp [dispatched, hrs]
    | some rs =>
      dsimp only
      by_cases h1 : now < rs
      · rw [if_pos h1]
        simp only [dispatched]
        constructor
        · intro h; simp at h
        · rintro ⟨s', rs', hs', hrs', hle, _, _⟩
          obtain rfl : s' = s := (Option.some_inj.mp hs').symm
          rw [hrs] at hrs'
          obtain rfl : rs' = rs := (Option.some_inj.mp hrs').symm
          omega
      · rw [if_neg h1]
        by_cases h2 : now < rs + 60 * s.round_minutes ∧ ¬allSubmitted
        · rw [if_pos h2]
          simp only [dispatched]
          constructor
          · intro h; simp at h
          · rintro ⟨s', rs', hs', hrs', hle, hcond, _⟩
            obtain rfl : s' = s := (Option.some_inj.mp hs').symm
            rw [hrs] at hrs'
            obtain rfl : rs' = rs := (Option.some_inj.mp hrs').symm
            rcases hcond with hsub | hlate
            · rw [hsub] at h2; simp at h2
            · omega
        · rw [if_neg h2]
          by_cases h3 : s.round_scored = some true
          · rw [if_pos h3]
            simp only [dispatched, decide_eq_true_eq]
            constructor
            · rintro ⟨_, hnone⟩
              rw [h3] at hnone
              simp at hnone
            · rintro ⟨s', rs', hs', hrs', hle, hcond, hnone⟩
              obtain rfl : s' = s := (Option.some_inj.mp hs').symm
              rw [h3] at hnone
              simp at hnone
          · rw [if_neg h3]
            simp only [dispatched, decide_eq_true_eq]
            constructor
            · rintro ⟨hcond, hnone⟩
              exact ⟨s, rs, rfl, hrs, by omega, hcond, hnone⟩
            · rintro ⟨s', rs', hs', hrs', hle, hcond, hnone⟩
              obtain rfl : s' = s := (Option.some_inj.mp hs').symm
              rw [hrs] at hrs'
              obtain rfl : rs' = rs := (Option.some_inj.mp hrs').symm
              exact ⟨hcond, hnone⟩

/-- A concrete run of C9's amended theorem: twenty seconds past the grace
deadline with a submission missing, the projection dispatches. -/
theorem session_state_dispatch_iff_witness :
    dispatched (session_state (some c4sess) 210 false 10) = true ↔
      ∃ s rs, (some c4sess : Option SessionRow) = some s ∧ s.round_start = some rs
        ∧ rs ≤ (210 : Int)
        ∧ (false = true ∨ rs + 60 * s.round_minutes + 10 < (210 : Int))
        ∧ s.round_scored = none :=
  session_state_dispatch_iff (some c4sess) 210 false 10 (by decide)

/-! The word ingestion of the PUT branch of `play`:
`set(BoggleWord(w) for w in words if w)` — empty strings dropped, the rest
collapsed by `BoggleWord` set membership (keyed on the equality form) —
with `str(word)` (the cleaned display form) stored per surviving element.
Python set iteration order is unspecified; this embedding keeps the first
occurrence of each equality form (the source's own test notes that which
representative survives is undefined). -/

/-- The word-collapsing loop: skip empty raw words, skip raw words whose
equality form was already taken, and store the cleaned display form of
the rest. -/
def submitted_words_go (ud : List Char → List Char) (seen : List (List Char)) :
    List (List Char) → List (List Char)
  | [] => []
  | w :: rest =>
    if w = [] then submitted_words_go ud seen rest
    else if eqform ud w ∈ seen then submitted_words_go ud seen rest
    else clean_word ud w :: submitted_words_go ud (eqform ud w :: seen) rest

/-- The stored words of an accepted submission. -/
def submitted_words (ud : List Char → List Char) (ws : List (List Char)) : List (List Char) :=
  submitted_words_go ud [] ws

theorem submitted_words_go_origin (ud : List Char → List Char) :
    ∀ (ws seen : List (List Char)) (w : List Char), w ∈ submitted_words_go ud seen ws →
      ∃ v, v ∈ ws ∧ v ≠ [] ∧ w = clean_word ud v := by
  intro ws
  induction ws with
  | nil => intro seen w hw; simp [submitted_words_go] at hw
  | cons u rest ih =>
    intro seen w hw
    rw [submitted_words_go] at hw
    by_cases hu : u = []
    · rw [if_pos hu] at hw
      obtain ⟨v, hv, hvne, hvw⟩ := ih seen w hw
      exact ⟨v, by simp [hv], hvne, hvw⟩
    · rw [if_neg hu] at hw
      by_cases hseen : eqform ud u ∈ seen
      · rw [if_pos hseen] at hw
        obtain ⟨v, hv, hvne, hvw⟩ := ih seen w hw
        exact ⟨v, by simp [hv], hvne, hvw⟩
      · rw [if_neg hseen] at hw
        rcases List.mem_cons.mp hw with rfl | hw'
        · exact ⟨u, by simp, hu, rfl⟩
        · obtain ⟨v, hv, hvne, hvw⟩ := ih _ w hw'
          exact ⟨v, by simp [hv], hvne, hvw⟩

theorem submitted_words_go_fresh (ud : List Char → List Char) :
    ∀ (ws seen : List (List Char)) (w : List Char), w ∈ submitted_words_go ud seen ws →
      qCollapse w ∉ seen := by
  intro ws
  induction ws with
  | nil => intro seen w hw; simp [submitted_words_go] at hw
  | cons u rest ih =>
    intro seen w hw
    rw [submitted_words_go] at hw
    by_cases hu : u = []
    · rw [if_pos hu] at hw
      exact ih seen w hw
    · rw [if_neg hu] at hw
      by_cases hseen : eqform ud u ∈ seen
      · rw [if_pos hseen] at hw
        exact ih seen w hw
      · rw [if_neg hseen] at hw
        rcases List.mem_cons.mp hw with rfl | hw'
        · exact hseen
        · have := ih _ w hw'
          intro hmem
          exact this (by simp [hmem])

theorem submitted_words_go_pairwise (ud : List Char → List Char) :
    ∀ (ws seen : List (List Char)),
      (submitted_words_go ud seen ws).Pairwise fun w₁ w₂ => qCollapse w₁ ≠ qCollapse w₂ := by
  intro ws
  induction ws with
  | nil => intro seen; simp [submitted_words_go]
  | cons u rest ih =>
    intro seen
    rw [submitted_words_go]
    by_cases hu : u = []
    · rw [if_pos hu]; exact ih seen
    · rw [if_neg hu]
      by_cases hseen : eqform ud u ∈ seen
      · rw [if_pos hseen]; exact ih seen
      · rw [if_neg hseen]
        refine List.Pairwise.cons ?_ (ih _)
        intro b hb
        have hfresh := submitted_words_go_fresh ud rest (eqform ud u :: seen) b hb
        intro heq
        exact hfresh (List.mem_cons.mpr (Or.inl heq.symm))

theorem submitted_words_go_covers (ud : List Char → List Char) :
    ∀ (ws seen : List (List Char)) (v : List Char), v ∈ ws → v ≠ [] →
      eqform ud v ∉ seen →
      ∃ w, w ∈ submitted_words_go ud seen ws ∧ qCollapse w = eqform ud v := by
  intro ws
  induction ws with
  | nil => intro seen v hv; simp at hv
  | cons u rest ih =>
    intro seen v hv hvne hvseen
    rw [submitted_words_go]
    rcases List.mem_cons.mp hv with rfl | hv'
    · rw [if_neg hvne, if_neg hvseen]
      exact ⟨clean_word ud v, by simp, rfl⟩
    · by_cases hu : u = []
      · rw [if_pos hu]
        exact ih seen v hv' hvne hvseen
      · rw [if_neg hu]
        by_cases hseen : eqform ud u ∈ seen
        · rw [if_pos hseen]
          exact ih seen v hv' hvne hvseen
        · rw [if_neg hseen]
          by_cases heq : eqform ud v = eqform ud u
          · exact ⟨clean_word ud u, by simp, heq.symm⟩
          · obtain ⟨w, hw, hwq⟩ := ih (eqform ud u :: seen) v hv' hvne
              (by simp [hvseen, heq])
            exact ⟨w, by simp [hw], hwq⟩

/-- C10: an accepted submission silently drops empty strings — every
stored word is the cleaned display form of some non-empty supplied
string — the stored words carry pairwise distinct equality forms, and
every non-empty supplied string is represented by a stored word with its
equality form. -/
theorem play_put_stored_words (ud : List Char → List Char) (ws : List (List Char)) :
    (∀ w ∈ submitted_words ud ws, ∃ v, v ∈ ws ∧ v ≠ [] ∧ w = clean_word ud v)
      ∧ ((submitted_words ud ws).Pairwise fun w₁ w₂ => qCollapse w₁ ≠ qCollapse w₂)
      ∧ (∀ v ∈ ws, v ≠ [] →
          ∃ w, w ∈ submitted_words ud ws ∧ qCollapse w = eqform ud v) := by
  refine ⟨?_, submitted_words_go_pairwise ud ws [], ?_⟩
  · intro w hw
    exact submitted_words_go_origin ud ws [] w hw
  · intro v hv hvne
    exact submitted_words_go_covers ud ws [] v hv hvne (by simp)

/-- A concrete run of C10's theorem: the submission [a, empty, A] stores
the single word A, which is the cleaned form of the non-empty entry a. -/
theorem play_put_stored_words_witness :
    (∃ v, v ∈ [['a'], ([] : List Char), ['A']] ∧ v ≠ [] ∧ ['A'] = clean_word id v)
      ∧ ((submitted_words id [['a'], [], ['A']]).Pairwise
          fun w₁ w₂ => qCollapse w₁ ≠ qCollapse w₂)
      ∧ (∃ w, w ∈ submitted_words id [['a'], [], ['A']] ∧ qCollapse w = eqform id ['A']) :=
  ⟨(play_put_stored_words id [['a'], [], ['A']]).1 ['A'] (by decide),
   (play_put_stored_words id [['a'], [], ['A']]).2.1,
   (play_put_stored_words id [['a'], [], ['A']]).2.2 ['A'] (by decide) (by decide)⟩

/-! The Python effective-score projection (`format_scores` of boggle.py,
the `ScoringScheme.BASIC` path, which `emit_scores` also uses for sessions
with `use_mild_scoring` when the SQL views are disabled). The per-player
sorting of the emitted word list is omitted: it permutes each list and
does not touch any per-word field. -/

/-- A scored `Word` row as `format_scores` reads it (after the worker has
filled the outputs). -/
structure ScoredWord where
  word : List Char
  score : Nat
  duplicate : Bool
  dictionary_valid : Bool
  path_array : Option (List Pos)
  deriving DecidableEq

/-- The dictionary of `AbstractWord.score_json`, plus the `longest_bonus`
key `format_scores` adds. -/
structure ScoreJson where
  word : List Char
  score : Nat
  in_grid : Bool
  duplicate : Bool
  dictionary_valid : Bool
  path : Option (List Pos)
  longest_bonus : Bool
  deriving DecidableEq

/-- `AbstractWord.score_json`: the stored score gated to 0 when the word
is not dictionary-valid (`longest_bonus` starts false; `format_scores`
sets it). -/
def score_json (w : ScoredWord) : ScoreJson :=
  { word := w.word, score := if w.dictionary_valid then w.score else 0,
    in_grid := w.path_array.isSome, duplicate := w.duplicate,
    dictionary_valid := w.dictionary_valid, path := w.path_array,
    longest_bonus := false }

/-- The per-player `max_len` of `format_scores`: the greatest display-form
length among the player's scored, dictionary-valid words (0 when there is
none). -/
def max_len (words : List ScoredWord) : Nat :=
  ((words.filter fun w => w.score != 0 && w.dictionary_valid).map
    fun w => w.word.length).foldr max 0

/-- One step of the longest/longest_unique scan of `format_scores`. -/
def lmax_step (acc : Nat × Bool) (m : Nat) : Nat × Bool :=
  if acc.1 < m then (m, true) else if m = acc.1 then (acc.1, false) else acc

/-- The longest/longest_unique scan of `format_scores` over the players'
per-player maxima, starting from (0, true). -/
def longest_fold (ls : List (List ScoredWord)) : Nat × Bool :=
  (ls.map max_len).foldl lmax_step (0, true)

/-- The per-word effective-score projection of `format_scores`: zero
duplicates unless mild scoring, then double the score of every word whose
length equals the unique longest, marking `longest_bonus`. -/
def effective_word (use_mild : Bool) (longest : Nat) (longest_unique : Bool)
    (w : ScoredWord) : ScoreJson :=
  let sj := if ¬use_mild ∧ w.duplicate then { score_json w with score := 0 } else score_json w
  if longest_unique ∧ w.word.length = longest then
    { sj with score := sj.score * 2, longest_bonus := true }
  else
    { sj with longest_bonus := false }

/-- The `effective_scores` generator of `format_scores`, over one player's
words. -/
def effective_scores (use_mild : Bool) (longest : Nat) (longest_unique : Bool)
    (words : List ScoredWord) : List ScoreJson :=
  words.map (effective_word use_mild longest longest_unique)

/-- The per-player emission of `format_scores`, given the precomputed
longest/longest_unique pair. -/
def format_scores_with (lu : Nat × Bool)
    (by_player : List ((Nat × List Char) × List ScoredWord)) (use_mild : Bool) :
    List ((Nat × List Char) × List ScoreJson) :=
  by_player.map fun e => (e.1, effective_scores use_mild lu.1 lu.2 e.2)

/-- `format_scores` of boggle.py: one longest/longest_unique scan over all
players, then the per-word projection for each player. -/
def format_scores (by_player : List ((Nat × List Char) × List ScoredWord))
    (use_mild : Bool) : List ((Nat × List Char) × List ScoreJson) :=
  format_scores_with (longest_fold (by_player.map fun e => e.2)) by_player use_mild

/-- A scored row: the word HELLO, base score 2, not a duplicate,
dictionary-valid, with a path. -/
def c3word : ScoredWord :=
  { word := ['H', 'E', 'L', 'L', 'O'], score := 2, duplicate := false,
    dictionary_valid := true, path_array := some [(0, 0)] }

/-- C3, refuted: under mild scoring, the sole player's unique longest word
HELLO (score 2) receives effective score 4 = 2 × 2 from `format_scores` —
the longest-word bonus in the Python scoring path is ×2 even under the
mild variant, not the ×3 the claim states (the ×3 lives only in the SQL
effective-score view, which is outside this code path). -/
theorem format_scores_mild_bonus_not_triple :
    format_scores [((1, ['p']), [c3word])] true
        = [((1, ['p']),
            [{ word := ['H', 'E', 'L', 'L', 'O'], score := 4, in_grid := true,
               duplicate := false, dictionary_valid := true,
               path := some [(0, 0)], longest_bonus := true }])]
      ∧ (4 : Nat) ≠ 3 * c3word.score := by
  decide

theorem lmax_step_lt {L : Nat} {acc : Nat × Bool} {m : Nat}
    (hacc : acc.1 < L) (hm : m < L) : (lmax_step acc m).1 < L := by
  rw [lmax_step]
  by_cases h1 : acc.1 < m
  · rw [if_pos h1]; exact hm
  · rw [if_neg h1]
    by_cases h2 : m = acc.1
    · rw [if_pos h2]; exact hacc
    · rw [if_neg h2]; exact hacc

theorem foldl_lmax_keep {L : Nat} :
    ∀ ms : List Nat, (∀ m ∈ ms, m < L) → ms.foldl lmax_step (L, true) = (L, true) := by
  intro ms
  induction ms with
  | nil => intro _; rfl
  | cons m rest ih =>
    intro h
    have hm := h m (by simp)
    rw [List.foldl_cons]
    have hstep : lmax_step (L, true) m = (L, true) := by
      rw [lmax_step]
      rw [if_neg (by omega)]
      rw [if_neg (by omega)]
    rw [hstep]
    exact ih fun x hx => h x (by simp [hx])

theorem foldl_lmax_dom {L : Nat} :
    ∀ (ms : List Nat) (i : Nat) (acc : Nat × Bool),
      ms.get? i = some L → acc.1 < L →
      (∀ (j : Nat) (m : Nat), j ≠ i → ms.get? j = some m → m < L) →
      ms.foldl lmax_step acc = (L, true) := by
  intro ms
  induction ms with
  | nil => intro i acc hi; simp at hi
  | cons m₀ rest ih =>
    intro i acc hi hacc hdom
    match i, hi with
    | 0, hi =>
      have hm₀ : m₀ = L := by simpa using hi
      subst hm₀
      rw [List.foldl_cons]
      have hstep : lmax_step acc m₀ = (m₀, true) := by
        rw [lmax_step, if_pos hacc]
      rw [hstep]
      refine foldl_lmax_keep rest ?_
      intro x hx
      obtain ⟨n, hn⟩ := List.mem_iff_get?.mp hx
      exact hdom (n + 1) x (by omega) (by simpa using hn)
    | Nat.succ i', hi =>
      have hm₀ : m₀ < L := hdom 0 m₀ (by omega) (by simp)
      rw [List.foldl_cons]
      refine ih i' (lmax_step acc m₀) (by simpa using hi) (lmax_step_lt hacc hm₀) ?_
      intro j m hj hjm
      exact hdom (j + 1) m (by omega) (by simpa using hjm)

theorem effective_word_mild_longest (L : Nat) (w : ScoredWord)
    (hlen : w.word.length = L) :
    (effective_word true L true w).score = 2 * (if w.dictionary_valid then w.score else 0)
      ∧ (effective_word true L true w).longest_bonus = true := by
  by_cases hd : w.dictionary_valid
  · simp [effective_word, score_json, hlen, hd, Nat.mul_comm]
  · simp [effective_word, score_json, hlen, hd, Nat.mul_comm]

theorem forall₂_map_right {α β : Type} {R : α → β → Prop} (f : α → β) :
    ∀ l : List α, (∀ a ∈ l, R a (f a)) → List.Forall₂ R l (l.map f) := by
  intro l
  induction l with
  | nil => intro _; simp
  | cons a rest ih =>
    intro h
    rw [List.map_cons]
    exact List.Forall₂.cons (h a (by simp)) (ih fun x hx => h x (by simp [hx]))

/-- The per-player maximum of entry `i` (0 past the end). -/
def entry_max_len (bp : List ((Nat × List Char) × List ScoredWord)) (i : Nat) : Nat :=
  max_len ((bp.get? i).elim [] fun e => e.2)

/-- The word rows of entry `i` (empty past the end). -/
def entry_words (bp : List ((Nat × List Char) × List ScoredWord)) (i : Nat) :
    List ScoredWord :=
  (bp.get? i).elim [] fun e => e.2

/-- The formatted rows of entry `i` (empty past the end). -/
def out_words (bp : List ((Nat × List Char) × List ScoredWord)) (use_mild : Bool)
    (i : Nat) : List ScoreJson :=
  ((format_scores bp use_mild).get? i).elim [] fun e => e.2

/-- C3, amended: under mild scoring, when player `i` strictly dominates
every other player's scored-valid maximum length, each of that player's
words of that maximum length receives an effective score of exactly 2
times its dictionary-gated score (the Python-path bonus is ×2, not ×3)
and is marked `longest_bonus`. -/
theorem format_scores_mild_longest (bp : List ((Nat × List Char) × List ScoredWord))
    (i : Nat) (hi : i < bp.length) (hpos : 0 < entry_max_len bp i)
    (hdom : ∀ j : Nat, j < bp.length → j ≠ i → entry_max_len bp j < entry_max_len bp i) :
    List.Forall₂
      (fun w sj => w.word.length = entry_max_len bp i →
        sj.score = 2 * (if w.dictionary_valid then w.score else 0)
          ∧ sj.longest_bonus = true)
      (entry_words bp i) (out_words bp true i) := by
  obtain ⟨e, he⟩ : ∃ e, bp.get? i = some e := by
    rw [List.get?_eq_get hi]
    exact ⟨_, rfl⟩
  have hL : entry_max_len bp i = max_len e.2 := by
    rw [entry_max_len, he]
    rfl
  have hfold : longest_fold (bp.map fun e => e.2) = (entry_max_len bp i, true) := by
    rw [longest_fold, List.map_map]
    refine foldl_lmax_dom (bp.map (max_len ∘ fun e => e.2)) i (0, true) ?_ hpos ?_
    · rw [List.get?_map, he, hL]
      rfl
    · intro j m hj hjm
      rw [List.get?_map] at hjm
      rcases hje : bp.get? j with _ | ej
      · rw [hje] at hjm; simp at hjm
      · rw [hje] at hjm
        have hm : m = max_len ej.2 := by simpa using hjm.symm
        have hjlen : j < bp.length := by
          by_contra hcon
          rw [List.get?_eq_none.mpr (by omega)] at hje
          exact Option.noConfusion hje
        have := hdom j hjlen hj
        rw [entry_max_len, hje] at this
        rw [hm]
        exact this
  have hout : out_words bp true i
      = effective_scores true (entry_max_len bp i) true e.2 := by
    rw [out_words, format_scores, hfold, format_scores_with, List.get?_map, he]
    rfl
  have hin : entry_words bp i = e.2 := by
    rw [entry_words, he]
    rfl
  rw [hout, hin, effective_scores]
  refine forall₂_map_right _ e.2 ?_
  intro w hw hlen
  exact effective_word_mild_longest (entry_max_len bp i) w hlen

/-- A concrete run of C3's amended theorem on the single-player input
holding HELLO: its one maximum-length word gets score 2 × 2 and the
bonus flag. -/
theorem format_scores_mild_longest_witness :
    List.Forall₂
      (fun w sj => w.word.length = entry_max_len [((1, ['p']), [c3word])] 0 →
        sj.score = 2 * (if w.dictionary_valid then w.score else 0)
          ∧ sj.longest_bonus = true)
      (entry_words [((1, ['p']), [c3word])] 0)
      (out_words [((1, ['p']), [c3word])] true 0) :=
  format_scores_mild_longest [((1, ['p']), [c3word])] 0 (by decide) (by decide)
    (fun j hj hne => absurd (Nat.lt_one_iff.mp hj) hne)

end Boggle
